import Mathlib

/-!
Shallow embedding of the 1brc aggregation pipeline from src/main.rs.

Byte buffers are lists of natural numbers (byte values). Machine integers
are modelled as Int and Nat with explicit wrapping where the Rust code can
overflow: i16 arithmetic in the reading parser, the i64 sum accumulator and
the u32 count accumulator. Fallible unchecked indexing is modelled with
Option: a read past the end of the buffer yields none.
-/

/-- Wrapping two complement arithmetic for i16: reduce an integer into the
interval from -32768 to 32767. -/
def wrap16 (x : Int) : Int := (x + 32768) % 65536 - 32768

/-- Wrapping two complement arithmetic for i64. -/
def wrap64 (x : Int) : Int :=
  (x + 9223372036854775808) % 18446744073709551616 - 9223372036854775808

/-- Wrapping arithmetic for u32 counters. -/
def wrap32 (n : Nat) : Nat := n % 4294967296

/-- Per key running aggregate, mirroring struct Entry in main.rs: min and max
reading in tenths (i16), sum of readings (i64), number of readings (u32). -/
structure Entry where
  min : Int
  max : Int
  sum : Int
  count : Nat
deriving DecidableEq

/-- The hash table from city name to Entry is modelled as an association
list with unique keys; AHashMap iteration order is irrelevant because all
statements compare tables by lookup. -/
abbrev Table := List (List Nat × Entry)

/-- Lookup of a key in the table, mirroring cities.get_mut in main.rs. -/
def lookupCity : Table → List Nat → Option Entry
  | [], _ => none
  | (c, e) :: rest, k => if c = k then some e else lookupCity rest k

/-- A table is well formed when its keys are pairwise distinct, which every
table built by the hash map operations satisfies. -/
def NodupKeys (t : Table) : Prop := (t.map Prod.fst).Nodup

/-- Extensional table equality: same keys and identical entry per key. -/
def TableEq (a b : Table) : Prop := ∀ k, lookupCity a k = lookupCity b k

/-- Componentwise combination of two entries, the update rule in
upsert_entry of main.rs: min, max, wrapping i64 sum, wrapping u32 count. -/
def combineEntry (a b : Entry) : Entry :=
  ⟨min a.min b.min, max a.max b.max, wrap64 (a.sum + b.sum), wrap32 (a.count + b.count)⟩

/-- upsert_entry from main.rs: update the entry for the key in place if
present, insert it otherwise. -/
def upsert_entry : Table → List Nat → Entry → Table
  | [], k, e => [(k, e)]
  | (c, o) :: rest, k, e =>
      if c = k then (c, combineEntry o e) :: rest
      else (c, o) :: upsert_entry rest k e

/-- insert_reading from main.rs: fold a single reading into the entry for
the key, creating the entry with min = max = sum = reading and count 1 when
the key is new. -/
def insert_reading : Table → List Nat → Int → Table
  | [], k, r => [(k, ⟨r, r, r, 1⟩)]
  | (c, o) :: rest, k, r =>
      if c = k then
        (c, ⟨min o.min r, max o.max r, wrap64 (o.sum + r), wrap32 (o.count + 1)⟩) :: rest
      else (c, o) :: insert_reading rest k r

/-- merge_results from main.rs: fold every entry of the second table into
the first with upsert_entry. -/
def merge_results (a b : Table) : Table :=
  b.foldl (fun t p => upsert_entry t p.1 p.2) a

/-- Scan a byte list for the first semicolon, carrying the absolute index;
models the semicolon search loop in process_chunk, where running off the
end of the buffer is an unchecked out of bounds read, modelled as none. -/
def semiGo : List Nat → Nat → Option Nat
  | [], _ => none
  | b :: bs, i => if b = 59 then some i else semiGo bs (i + 1)

/-- Absolute index of the first semicolon at or after position i. -/
def scanSemi (B : List Nat) (i : Nat) : Option Nat := semiGo (B.drop i) i

/-- Scan a byte list for the first line terminator and return the index one
past it; models the boundary skip loop in process_chunk. -/
def skipGo : List Nat → Nat → Option Nat
  | [], _ => none
  | b :: bs, i => if b = 10 then some (i + 1) else skipGo bs (i + 1)

/-- Index one past the first line terminator at or after position i. -/
def skipLine (B : List Nat) (i : Nat) : Option Nat := skipGo (B.drop i) i

/-- The digit loop of parse_i16 in main.rs. Each iteration first multiplies
the i16 accumulator by ten with wrapping, then either, on a decimal point,
adds the following byte minus 48 and stops two positions further, or adds
the current byte minus 48 and continues. Reads past the end of the buffer
are modelled as none. -/
def parseGo : List Nat → Nat → Int → Option (Int × Nat)
  | [], _, _ => none
  | b :: bs, p, reading =>
      if b = 46 then
        match bs with
        | [] => none
        | d :: _ => some (wrap16 (wrap16 (reading * 10) + ((d : Int) - 48)), p + 2)
      else parseGo bs (p + 1) (wrap16 (wrap16 (reading * 10) + ((b : Int) - 48)))

/-- parse_i16 from main.rs: optionally consume a leading minus sign, run the
digit loop, and negate the wrapped result when the sign was present. The
returned index is the read head position after the fractional digit. -/
def parse_i16 (B : List Nat) (p : Nat) : Option (Int × Nat) :=
  match B.drop p with
  | [] => none
  | b :: bs =>
      if b = 45 then (parseGo bs (p + 1) 0).map (fun vq => (wrap16 (-vq.1), vq.2))
      else parseGo (b :: bs) p 0

/-- Subslice of the buffer from index i inclusive to j exclusive, the
borrowed city name slice in process_chunk. -/
def sliceBytes (B : List Nat) (i j : Nat) : List Nat := (B.drop i).take (j - i)

/-- The record loop of process_chunk. While the head is before the window
end, find the semicolon after the first key byte, parse the reading behind
it, fold it into the table and move the head one past the terminator. The
loop advances the head by at least five bytes per iteration, so a fuel of
the window size plus one is sufficient and the fuel exhaustion branch is
unreachable on well formed input; it is modelled as none like the out of
bounds reads. -/
def scanGo : Nat → List Nat → Nat → Nat → Table → Option Table
  | 0, _, _, _, _ => none
  | fuel + 1, B, head, hi, t =>
      if head < hi then
        match scanSemi B (head + 1) with
        | none => none
        | some semi =>
            match parse_i16 B (semi + 1) with
            | none => none
            | some (r, tail) =>
                scanGo fuel B (tail + 1) hi (insert_reading t (sliceBytes B head semi) r)
      else some t

/-- The record loop started with sufficient fuel. -/
def scanRecords (B : List Nat) (head hi : Nat) (t : Table) : Option Table :=
  scanGo (hi - head + 1) B head hi t

/-- process_chunk from main.rs: when the window does not start at the very
beginning of the buffer, skip forward to one past the next line terminator,
then run the record loop against the window end. -/
def process_chunk (B : List Nat) (lo hi : Nat) : Option Table :=
  if lo = 0 then scanRecords B lo hi []
  else
    match skipLine B lo with
    | none => none
    | some h => scanRecords B h hi []

/-- Number of worker threads, the constant THREADS in main.rs. -/
def THREADS : Nat := 10

/-- The windows main passes to process_chunk: for thread i the proposed
byte range from i times chunk_size to i plus one times chunk_size, with
chunk_size the buffer length divided by the worker count. -/
def windows (L n : Nat) : List (Nat × Nat) :=
  (List.range n).map (fun i => (i * (L / n), (i + 1) * (L / n)))

/-- The per window results main computes, one process_chunk call per
thread, in thread order. -/
def chunkTables (B : List Nat) : List (Option Table) :=
  (List.range THREADS).map
    (fun i => process_chunk B (i * (B.length / THREADS)) ((i + 1) * (B.length / THREADS)))

/-- Collect a list of optional tables, failing when any of them failed; in
the program every chunk scan is total, so this models joining the workers. -/
def seqTables : List (Option Table) → Option (List Table)
  | [] => some []
  | o :: os =>
      match o, seqTables os with
      | some t, some ts => some (t :: ts)
      | _, _ => none

/-- The merged table main computes: the per window tables folded with
merge_results. The rayon reduction tree shape is unspecified; the left fold
is representative because merge_results is associative and commutative up
to table equality, which is proved below. -/
def mainTable (B : List Nat) : Option Table :=
  match seqTables (chunkTables B) with
  | none => none
  | some [] => none
  | some (t :: ts) => some (ts.foldl merge_results t)

/-- The wrapped Horner accumulation of a run of bytes, as performed by the
digit loop of parse_i16 on the bytes before the decimal point. -/
def accumGo (acc : Int) (bs : List Nat) : Int :=
  bs.foldl (fun a b => wrap16 (wrap16 (a * 10) + ((b : Int) - 48))) acc

/-- The final value returned by the digit loop: the accumulated bytes,
multiplied by ten with wrapping, plus the fractional digit byte minus 48. -/
def accumFin (acc : Int) (bs : List Nat) (d : Nat) : Int :=
  wrap16 (wrap16 (accumGo acc bs * 10) + ((d : Int) - 48))

/-- Exact integer value of a digit string, most significant digit first. -/
def digitsVal (ds : List Nat) : Int :=
  ds.foldl (fun a b => a * 10 + ((b : Int) - 48)) 0

/-- Byte rendering of a reading: optional minus sign, integer digits,
decimal point, one fractional digit. -/
def numBytesOf (neg : Bool) (ds : List Nat) (frac : Nat) : List Nat :=
  (if neg then [45] else []) ++ ds ++ [46, frac]

/-- A record of the input format before rendering: key bytes, sign, integer
digit bytes and fractional digit byte. -/
structure RawRecord where
  key : List Nat
  neg : Bool
  digits : List Nat
  frac : Nat
deriving DecidableEq

/-- Byte rendering of the numeric field of a record. -/
def numBytes (r : RawRecord) : List Nat := numBytesOf r.neg r.digits r.frac

/-- Byte rendering of one full record: key, semicolon, reading, newline. -/
def recordBytes (r : RawRecord) : List Nat := r.key ++ 59 :: numBytes r ++ [10]

/-- Well formed record per the input format contract: nonempty key without
semicolon or newline bytes, nonempty digit run, digit bytes in range. -/
def WFRecord (r : RawRecord) : Prop :=
  r.key ≠ [] ∧ (∀ b ∈ r.key, b ≠ 59 ∧ b ≠ 10) ∧ r.digits ≠ [] ∧
    (∀ b ∈ r.digits, 48 ≤ b ∧ b ≤ 57) ∧ 48 ≤ r.frac ∧ r.frac ≤ 57

instance (r : RawRecord) : Decidable (WFRecord r) := by
  unfold WFRecord; infer_instance

/-- A well formed buffer: the concatenation of rendered records, hence
newline terminated whenever it is nonempty. -/
def buffer (rs : List RawRecord) : List Nat := (rs.map recordBytes).flatten

/-- The exact reading value of a record in tenths. -/
def recordVal (r : RawRecord) : Int :=
  (if r.neg then -1 else 1) * (digitsVal r.digits * 10 + ((r.frac : Int) - 48))

/-- An entry correctly summarizes a list of readings: bounds on every
reading, positive count, exact sum and exact count. -/
def EntrySummary (e : Entry) (rs : List Int) : Prop :=
  (∀ r ∈ rs, e.min ≤ r ∧ r ≤ e.max) ∧ 1 ≤ e.count ∧ e.sum = rs.sum ∧ e.count = rs.length

/-- A table correctly represents a multiset of readings per key, given as a
list valued map: present entries summarize the nonempty lists, absent keys
have the empty list. -/
def TableReps (t : Table) (m : List Nat → List Int) : Prop :=
  ∀ k, (∀ e, lookupCity t k = some e → EntrySummary e (m k)) ∧
    (lookupCity t k = none → m k = [])

/-- Pointwise update of a list valued map. -/
def updateM (m : List Nat → List Int) (k : List Nat) (v : List Int) :
    List Nat → List Int :=
  fun q => if q = k then v else m q

/-- Combination of optional entries, describing the lookup in a merged
table from the lookups in the two inputs. -/
def mergeOpt : Option Entry → Option Entry → Option Entry
  | some u, some v => some (combineEntry u v)
  | some u, none => some u
  | none, some v => some v
  | none, none => none

/-- Exact Horner evaluation of a byte run from a given accumulator. -/
def hornerAcc (a : Int) (bs : List Nat) : Int :=
  bs.foldl (fun x b => x * 10 + ((b : Int) - 48)) a

/-- Exact value in tenths of a rendered reading. -/
def numVal (neg : Bool) (ds : List Nat) (frac : Nat) : Int :=
  (if neg then -1 else 1) * (digitsVal ds * 10 + ((frac : Int) - 48))

/-- The entry stored for the key after upsert_entry, as a function of the
previous lookup result. -/
def upsertVal (old : Option Entry) (e : Entry) : Entry :=
  match old with
  | some o => combineEntry o e
  | none => e

/-- The entry stored for the key after insert_reading, as a function of the
previous lookup result. -/
def insertVal (old : Option Entry) (r : Int) : Entry :=
  match old with
  | some o => ⟨min o.min r, max o.max r, wrap64 (o.sum + r), wrap32 (o.count + 1)⟩
  | none => ⟨r, r, r, 1⟩

instance (t : Table) : Decidable (NodupKeys t) := by
  unfold NodupKeys; infer_instance


theorem wrap16_eq_self {x : Int} (h1 : -32768 ≤ x) (h2 : x ≤ 32767) : wrap16 x = x := by
  unfold wrap16; omega

theorem wrap16_step (a c : Int) :
    wrap16 (wrap16 (wrap16 a * 10) + c) = wrap16 (a * 10 + c) := by
  unfold wrap16; omega

theorem wrap16_neg_wrap (x : Int) : wrap16 (-wrap16 x) = wrap16 (-x) := by
  unfold wrap16; omega

theorem wrap16_zero : wrap16 0 = 0 := by unfold wrap16; decide

theorem accumGo_wrap (a : Int) (bs : List Nat) :
    accumGo (wrap16 a) bs = wrap16 (hornerAcc a bs) := by
  induction bs generalizing a with
  | nil => simp [accumGo, hornerAcc]
  | cons b bs ih =>
      show accumGo (wrap16 (wrap16 (wrap16 a * 10) + ((b : Int) - 48))) bs = _
      rw [wrap16_step]
      rw [ih (a * 10 + ((b : Int) - 48))]
      rfl

theorem accumFin_eq_wrap (bs : List Nat) (d : Nat) :
    accumFin 0 bs d = wrap16 (hornerAcc 0 bs * 10 + ((d : Int) - 48)) := by
  unfold accumFin
  have h0 : accumGo 0 bs = wrap16 (hornerAcc 0 bs) := by
    rw [← wrap16_zero, accumGo_wrap, wrap16_zero]
  rw [h0, wrap16_step]

theorem digitsVal_eq_horner (ds : List Nat) : digitsVal ds = hornerAcc 0 ds := rfl

theorem parseGo_spec (bs : List Nat) (d : Nat) (rest : List Nat) (p : Nat) (acc : Int)
    (h46 : 46 ∉ bs) :
    parseGo (bs ++ 46 :: d :: rest) p acc =
      some (wrap16 (wrap16 (accumGo acc bs * 10) + ((d : Int) - 48)), p + bs.length + 2) := by
  induction bs generalizing p acc with
  | nil => simp [parseGo, accumGo]
  | cons b bs ih =>
      have hb : b ≠ 46 := fun h => h46 (h ▸ List.mem_cons_self b bs)
      have htl : 46 ∉ bs := fun h => h46 (List.mem_cons_of_mem b h)
      simp only [List.cons_append, parseGo, if_neg hb, List.append_eq]
      rw [ih (p + 1) _ htl]
      have h2 : p + 1 + bs.length + 2 = p + (b :: bs).length + 2 := by
        simp [List.length_cons]; omega
      rw [h2]
      rfl

theorem parse_i16_spec_pos (B : List Nat) (p : Nat) (bs : List Nat) (d : Nat)
    (rest : List Nat) (hdrop : B.drop p = bs ++ 46 :: d :: rest)
    (h46 : 46 ∉ bs) (h45 : 45 ∉ bs) :
    parse_i16 B p = some (accumFin 0 bs d, p + bs.length + 2) := by
  cases bs with
  | nil =>
      simp only [List.nil_append] at hdrop
      simp only [parse_i16, hdrop]
      norm_num
      have h := parseGo_spec [] d rest p 0 (by simp)
      simpa [accumFin] using h
  | cons b bsx =>
      have hb : b ≠ 45 := fun h => h45 (h ▸ List.mem_cons_self b bsx)
      simp only [List.cons_append] at hdrop
      simp only [parse_i16, hdrop, if_neg hb]
      have h := parseGo_spec (b :: bsx) d rest p 0 h46
      simpa [accumFin, List.cons_append] using h

theorem parse_i16_spec_neg (B : List Nat) (p : Nat) (bs : List Nat) (d : Nat)
    (rest : List Nat) (hdrop : B.drop p = 45 :: (bs ++ 46 :: d :: rest))
    (h46 : 46 ∉ bs) :
    parse_i16 B p = some (wrap16 (-(accumFin 0 bs d)), p + bs.length + 3) := by
  unfold parse_i16
  rw [hdrop]
  show (parseGo (bs ++ 46 :: d :: rest) (p + 1) 0).map
      (fun vq => (wrap16 (-vq.1), vq.2)) = _
  rw [parseGo_spec bs d rest (p + 1) 0 h46]
  have h2 : p + 1 + bs.length + 2 = p + bs.length + 3 := by omega
  simp [h2, accumFin]

theorem semiGo_spec (m rest : List Nat) (i : Nat) (h59 : 59 ∉ m) :
    semiGo (m ++ 59 :: rest) i = some (i + m.length) := by
  induction m generalizing i with
  | nil => simp [semiGo]
  | cons b bs ih =>
      have hb : b ≠ 59 := fun h => h59 (h ▸ List.mem_cons_self b bs)
      have htl : 59 ∉ bs := fun h => h59 (List.mem_cons_of_mem b h)
      simp only [List.cons_append, semiGo, if_neg hb, List.append_eq]
      rw [ih (i + 1) htl]
      congr 1
      simp [List.length_cons]
      omega

theorem scanSemi_spec (B : List Nat) (i : Nat) (m rest : List Nat)
    (hdrop : B.drop i = m ++ 59 :: rest) (h59 : 59 ∉ m) :
    scanSemi B i = some (i + m.length) := by
  unfold scanSemi
  rw [hdrop]
  exact semiGo_spec m rest i h59

theorem skipGo_spec (m rest : List Nat) (i : Nat) (h10 : 10 ∉ m) :
    skipGo (m ++ 10 :: rest) i = some (i + m.length + 1) := by
  induction m generalizing i with
  | nil => simp [skipGo]
  | cons b bs ih =>
      have hb : b ≠ 10 := fun h => h10 (h ▸ List.mem_cons_self b bs)
      have htl : 10 ∉ bs := fun h => h10 (List.mem_cons_of_mem b h)
      simp only [List.cons_append, skipGo, if_neg hb, List.append_eq]
      rw [ih (i + 1) htl]
      congr 1
      simp [List.length_cons]
      omega

theorem skipLine_spec (B : List Nat) (i : Nat) (m rest : List Nat)
    (hdrop : B.drop i = m ++ 10 :: rest) (h10 : 10 ∉ m) :
    skipLine B i = some (i + m.length + 1) := by
  unfold skipLine
  rw [hdrop]
  exact skipGo_spec m rest i h10

theorem semiGo_at (l : List Nat) (i j : Nat) (h : semiGo l i = some j) :
    i ≤ j ∧ l[j - i]? = some 59 := by
  induction l generalizing i with
  | nil => simp [semiGo] at h
  | cons b bs ih =>
      by_cases hb : b = 59
      · simp [semiGo, hb] at h
        subst h
        simp [hb]
      · simp only [semiGo, if_neg hb] at h
        obtain ⟨h1, h2⟩ := ih (i + 1) h
        refine ⟨by omega, ?_⟩
        have hj : j - i = (j - (i + 1)) + 1 := by omega
        rw [hj]
        simpa using h2

theorem scanSemi_at (B : List Nat) (i j : Nat) (h : scanSemi B i = some j) :
    i ≤ j ∧ B[j]? = some 59 := by
  obtain ⟨h1, h2⟩ := semiGo_at (B.drop i) i j h
  refine ⟨h1, ?_⟩
  rw [List.getElem?_drop] at h2
  rwa [show i + (j - i) = j by omega] at h2

theorem skipGo_at (l : List Nat) (i j : Nat) (h : skipGo l i = some j) :
    i < j ∧ l[j - 1 - i]? = some 10 := by
  induction l generalizing i with
  | nil => simp [skipGo] at h
  | cons b bs ih =>
      by_cases hb : b = 10
      · simp [skipGo, hb] at h
        subst h
        simp [hb]
      · simp only [skipGo, if_neg hb] at h
        obtain ⟨h1, h2⟩ := ih (i + 1) h
        refine ⟨by omega, ?_⟩
        have hj : j - 1 - i = (j - 1 - (i + 1)) + 1 := by omega
        rw [hj]
        simpa using h2

theorem skipLine_at (B : List Nat) (i j : Nat) (h : skipLine B i = some j) :
    i < j ∧ B[j - 1]? = some 10 := by
  obtain ⟨h1, h2⟩ := skipGo_at (B.drop i) i j h
  refine ⟨h1, ?_⟩
  rw [List.getElem?_drop] at h2
  rwa [show i + (j - 1 - i) = j - 1 by omega] at h2

theorem parseGo_ge (l : List Nat) (p : Nat) (acc : Int) (v : Int) (q : Nat)
    (h : parseGo l p acc = some (v, q)) : p + 2 ≤ q := by
  induction l generalizing p acc with
  | nil => simp [parseGo] at h
  | cons b bs ih =>
      by_cases hb : b = 46
      · cases bs with
        | nil => simp [parseGo, hb] at h
        | cons d tl =>
            simp [parseGo, hb] at h
            omega
      · simp only [parseGo, if_neg hb] at h
        have := ih (p + 1) _ h
        omega

theorem parse_i16_ge (B : List Nat) (p : Nat) (v : Int) (q : Nat)
    (h : parse_i16 B p = some (v, q)) : p + 2 ≤ q := by
  unfold parse_i16 at h
  cases hdrop : B.drop p with
  | nil => rw [hdrop] at h; simp at h
  | cons b bs =>
      rw [hdrop] at h
      by_cases hb : b = 45
      · simp only [if_pos hb] at h
        cases hp : parseGo bs (p + 1) 0 with
        | none => rw [hp] at h; simp at h
        | some vq =>
            rw [hp] at h
            simp at h
            have := parseGo_ge bs (p + 1) 0 vq.1 vq.2 (by rw [hp])
            omega
      · simp only [if_neg hb] at h
        have := parseGo_ge (b :: bs) p 0 v q h
        omega

/-- C6: parse_i16 started at the first byte of a well formed reading whose
value in tenths fits in i16 returns exactly that value and leaves the read
head on the byte immediately after the fractional digit, which is the line
terminator, so the next record begins one byte further. -/
theorem c6_parse_reading (pre ds rest : List Nat) (neg : Bool) (frac : Nat)
    (hds : ds ≠ []) (hdig : ∀ b ∈ ds, 48 ≤ b ∧ b ≤ 57)
    (hfr : 48 ≤ frac ∧ frac ≤ 57)
    (hlo : -32768 ≤ numVal neg ds frac) (hhi : numVal neg ds frac ≤ 32767) :
    parse_i16 (pre ++ numBytesOf neg ds frac ++ 10 :: rest) pre.length =
      some (numVal neg ds frac, pre.length + (numBytesOf neg ds frac).length) ∧
    (pre ++ numBytesOf neg ds frac ++ 10 :: rest)[pre.length +
      (numBytesOf neg ds frac).length]? = some 10 := by
  have h46 : 46 ∉ ds := fun h => by have := hdig 46 h; omega
  have h45 : 45 ∉ ds := fun h => by have := hdig 45 h; omega
  have hdrop : (pre ++ numBytesOf neg ds frac ++ 10 :: rest).drop pre.length =
      numBytesOf neg ds frac ++ 10 :: rest := by
    rw [List.append_assoc, List.drop_left]
  have hget : (pre ++ numBytesOf neg ds frac ++ 10 :: rest)[pre.length +
      (numBytesOf neg ds frac).length]? = some 10 := by
    rw [← List.getElem?_drop, hdrop, List.getElem?_append_right (le_refl _)]
    simp
  refine ⟨?_, hget⟩
  cases neg with
  | false =>
      have hshape : (pre ++ numBytesOf false ds frac ++ 10 :: rest).drop pre.length =
          ds ++ 46 :: frac :: (10 :: rest) := by
        rw [hdrop]
        simp [numBytesOf]
      have h := parse_i16_spec_pos _ pre.length ds frac (10 :: rest) hshape h46 h45
      rw [h]
      have hval : accumFin 0 ds frac = numVal false ds frac := by
        rw [accumFin_eq_wrap, ← digitsVal_eq_horner]
        have : numVal false ds frac = digitsVal ds * 10 + ((frac : Int) - 48) := by
          simp [numVal]
        rw [← this]
        exact wrap16_eq_self hlo hhi
      rw [hval]
      have hlen : (numBytesOf false ds frac).length = ds.length + 2 := by
        simp [numBytesOf]
      rw [hlen]
      have : pre.length + ds.length + 2 = pre.length + (ds.length + 2) := by omega
      rw [this]
  | true =>
      have hshape : (pre ++ numBytesOf true ds frac ++ 10 :: rest).drop pre.length =
          45 :: (ds ++ 46 :: frac :: (10 :: rest)) := by
        rw [hdrop]
        simp [numBytesOf]
      have h := parse_i16_spec_neg _ pre.length ds frac (10 :: rest) hshape h46
      rw [h]
      have hm : numVal true ds frac = -(digitsVal ds * 10 + ((frac : Int) - 48)) := by
        simp [numVal]
      have hval : wrap16 (-(accumFin 0 ds frac)) = numVal true ds frac := by
        rw [accumFin_eq_wrap, ← digitsVal_eq_horner, wrap16_neg_wrap, ← hm]
        exact wrap16_eq_self hlo hhi
      rw [hval]
      have hlen : (numBytesOf true ds frac).length = ds.length + 3 := by
        simp [numBytesOf]
      rw [hlen]
      have : pre.length + ds.length + 3 = pre.length + (ds.length + 3) := by omega
      rw [this]

/-- Witness for C6 at the concrete reading 12.3 followed by a newline. -/
theorem c6_parse_reading_witness :
    parse_i16 [49, 50, 46, 51, 10] 0 = some (123, 4) ∧
    ([49, 50, 46, 51, 10] : List Nat)[4]? = some 10 := by
  have h := c6_parse_reading [] [49, 50] [] false 51 (by decide) (by decide)
    (by decide) (by decide) (by decide)
  simpa [numBytesOf, numVal, digitsVal] using h

/-- Counterexample for C7: the buffer holds the single malformed record
with key A and numeric field 1x.3, whose byte x (120) is not a digit, yet
process_chunk completes without any error and folds the garbage value 823
into the table instead of failing. -/
theorem c7_counterexample :
    process_chunk [65, 59, 49, 120, 46, 51, 10] 0 7 =
      some [([65], ⟨823, 823, 823, 1⟩)] := by decide

/-- C7 amended: the code performs no input validation. Whenever the bytes
after the read head consist of any run without a decimal point byte,
followed by a decimal point and one more byte, parse_i16 silently succeeds
and returns the wrapped Horner fold of the run, digits or not; a malformed
numeric field is folded into an Entry as a wrong number rather than raising
a fatal error. Only a read past the end of the buffer yields none. -/
theorem c7_amended_silent_parse (pre bs rest : List Nat) (d : Nat)
    (h46 : 46 ∉ bs) (h45 : 45 ∉ bs) :
    parse_i16 (pre ++ bs ++ 46 :: d :: rest) pre.length =
      some (accumFin 0 bs d, pre.length + bs.length + 2) := by
  have hdrop : (pre ++ bs ++ 46 :: d :: rest).drop pre.length =
      bs ++ 46 :: d :: rest := by
    rw [List.append_assoc, List.drop_left]
  exact parse_i16_spec_pos _ pre.length bs d rest hdrop h46 h45

/-- Witness for the amended C7 at the malformed field 1x.3: parse_i16
silently returns 823 tenths. -/
theorem c7_amended_silent_parse_witness :
    parse_i16 [49, 120, 46, 51] 0 = some (823, 4) := by
  have h := c7_amended_silent_parse [] [49, 120] [] 51 (by decide) (by decide)
  simpa [accumFin, accumGo, wrap16] using h

/-- C1 fails on the code: with the well formed 12 byte buffer holding the
records A;0.0 and B;0.0 and the partitioning of main (THREADS = 10,
chunk_size = 1), the record B;0.0 starts exactly at the proposed split
point 6; window 5 stops before it and window 6 skips it, so the merged
table contains only key A and the record with key B is counted zero times
instead of exactly once. -/
theorem c1_record_at_boundary_dropped :
    mainTable [65, 59, 48, 46, 48, 10, 66, 59, 48, 46, 48, 10] =
      some [([65], ⟨0, 0, 0, 1⟩)] ∧
    (mainTable [65, 59, 48, 46, 48, 10, 66, 59, 48, 46, 48, 10]).map
      (fun t => lookupCity t [66]) = some none := by decide

/-- C2 fails on the code: for buffer length 12 and the configured worker
count 10, the last window main produces ends at 10, not at the buffer
length 12, and no window end equals 12, so the windows do not cover the
byte range up to the buffer length. -/
theorem c2_final_window_short :
    (windows 12 THREADS).getLast? = some (9, 10) ∧
    ∀ p ∈ windows 12 THREADS, p.2 < 12 := by decide

/-- C3 fails on the code: for the single record buffer X;0.0 of six bytes
and the configured worker count 10, chunk_size is 0, every window is the
empty range from 0 to 0, no window scans any byte, and the merged table is
empty, so the program prints an empty summary and the record is lost. -/
theorem c3_small_buffer_empty :
    mainTable [88, 59, 48, 46, 48, 10] = some [] := by decide

theorem lookupCity_upsert_self (t : Table) (k : List Nat) (e : Entry) :
    lookupCity (upsert_entry t k e) k = some (upsertVal (lookupCity t k) e) := by
  induction t with
  | nil => simp [upsert_entry, lookupCity, upsertVal]
  | cons p rest ih =>
      obtain ⟨c, o⟩ := p
      by_cases hck : c = k
      · subst hck; simp [upsert_entry, lookupCity, upsertVal]
      · show lookupCity (if c = k then (c, combineEntry o e) :: rest
            else (c, o) :: upsert_entry rest k e) k = _
        rw [if_neg hck]
        show (if c = k then some o else lookupCity (upsert_entry rest k e) k) = _
        rw [if_neg hck, ih]
        show _ = some (upsertVal (if c = k then some o else lookupCity rest k) e)
        rw [if_neg hck]

theorem lookupCity_upsert_other (t : Table) (k : List Nat) (e : Entry) (q : List Nat)
    (hq : q ≠ k) : lookupCity (upsert_entry t k e) q = lookupCity t q := by
  induction t with
  | nil =>
      show (if k = q then some e else none) = none
      rw [if_neg (fun h => hq h.symm)]
  | cons p rest ih =>
      obtain ⟨c, o⟩ := p
      by_cases hck : c = k
      · subst hck
        show lookupCity (if c = c then (c, combineEntry o e) :: rest
            else (c, o) :: upsert_entry rest c e) q = _
        rw [if_pos rfl]
        show (if c = q then some (combineEntry o e) else lookupCity rest q) = _
        rw [if_neg (fun h => hq h.symm)]
        show _ = (if c = q then some o else lookupCity rest q)
        rw [if_neg (fun h => hq h.symm)]
      · show lookupCity (if c = k then (c, combineEntry o e) :: rest
            else (c, o) :: upsert_entry rest k e) q = _
        rw [if_neg hck]
        show (if c = q then some o else lookupCity (upsert_entry rest k e) q) = _
        rw [ih]
        rfl

theorem lookupCity_insert_self (t : Table) (k : List Nat) (r : Int) :
    lookupCity (insert_reading t k r) k = some (insertVal (lookupCity t k) r) := by
  induction t with
  | nil => simp [insert_reading, lookupCity, insertVal]
  | cons p rest ih =>
      obtain ⟨c, o⟩ := p
      by_cases hck : c = k
      · subst hck; simp [insert_reading, lookupCity, insertVal]
      · show lookupCity (if c = k then
              (c, ⟨min o.min r, max o.max r, wrap64 (o.sum + r), wrap32 (o.count + 1)⟩) :: rest
            else (c, o) :: insert_reading rest k r) k = _
        rw [if_neg hck]
        show (if c = k then some o else lookupCity (insert_reading rest k r) k) = _
        rw [if_neg hck, ih]
        show _ = some (insertVal (if c = k then some o else lookupCity rest k) r)
        rw [if_neg hck]

theorem lookupCity_insert_other (t : Table) (k : List Nat) (r : Int) (q : List Nat)
    (hq : q ≠ k) : lookupCity (insert_reading t k r) q = lookupCity t q := by
  induction t with
  | nil =>
      show (if k = q then some (⟨r, r, r, 1⟩ : Entry) else none) = none
      rw [if_neg (fun h => hq h.symm)]
  | cons p rest ih =>
      obtain ⟨c, o⟩ := p
      by_cases hck : c = k
      · subst hck
        show lookupCity (if c = c then
              (c, ⟨min o.min r, max o.max r, wrap64 (o.sum + r), wrap32 (o.count + 1)⟩) :: rest
            else (c, o) :: insert_reading rest c r) q = _
        rw [if_pos rfl]
        show (if c = q then
            some (⟨min o.min r, max o.max r, wrap64 (o.sum + r), wrap32 (o.count + 1)⟩ : Entry)
          else lookupCity rest q) = _
        rw [if_neg (fun h => hq h.symm)]
        show _ = (if c = q then some o else lookupCity rest q)
        rw [if_neg (fun h => hq h.symm)]
      · show lookupCity (if c = k then
              (c, ⟨min o.min r, max o.max r, wrap64 (o.sum + r), wrap32 (o.count + 1)⟩) :: rest
            else (c, o) :: insert_reading rest k r) q = _
        rw [if_neg hck]
        show (if c = q then some o else lookupCity (insert_reading rest k r) q) = _
        rw [ih]
        rfl

theorem mem_keys_upsert (t : Table) (k : List Nat) (e : Entry) (q : List Nat) :
    q ∈ (upsert_entry t k e).map Prod.fst ↔ q ∈ t.map Prod.fst ∨ q = k := by
  induction t with
  | nil => simp [upsert_entry, eq_comm]
  | cons p rest ih =>
      obtain ⟨c, o⟩ := p
      by_cases hck : c = k
      · subst hck
        show q ∈ (List.map Prod.fst (if c = c then (c, combineEntry o e) :: rest
            else (c, o) :: upsert_entry rest c e)) ↔ _
        rw [if_pos rfl]
        simp
        tauto
      · show q ∈ (List.map Prod.fst (if c = k then (c, combineEntry o e) :: rest
            else (c, o) :: upsert_entry rest k e)) ↔ _
        rw [if_neg hck]
        simp [ih]
        tauto

theorem lookupCity_eq_none_of_not_mem (t : Table) (q : List Nat)
    (h : q ∉ t.map Prod.fst) : lookupCity t q = none := by
  induction t with
  | nil => rfl
  | cons p rest ih =>
      obtain ⟨c, o⟩ := p
      simp only [List.map_cons, List.mem_cons] at h
      push_neg at h
      show (if c = q then some o else lookupCity rest q) = none
      rw [if_neg (fun hc => h.1 hc.symm)]
      exact ih h.2

theorem nodup_upsert (t : Table) (k : List Nat) (e : Entry) (h : NodupKeys t) :
    NodupKeys (upsert_entry t k e) := by
  induction t with
  | nil => simp [upsert_entry, NodupKeys]
  | cons p rest ih =>
      obtain ⟨c, o⟩ := p
      unfold NodupKeys at h
      simp only [List.map_cons, List.nodup_cons] at h
      by_cases hck : c = k
      · subst hck
        unfold NodupKeys
        show (List.map Prod.fst (if c = c then (c, combineEntry o e) :: rest
            else (c, o) :: upsert_entry rest c e)).Nodup
        rw [if_pos rfl]
        simp only [List.map_cons, List.nodup_cons]
        exact h
      · have hrest := ih h.2
        unfold NodupKeys
        show (List.map Prod.fst (if c = k then (c, combineEntry o e) :: rest
            else (c, o) :: upsert_entry rest k e)).Nodup
        rw [if_neg hck]
        simp only [List.map_cons, List.nodup_cons]
        refine ⟨?_, hrest⟩
        rw [mem_keys_upsert]
        push_neg
        exact ⟨h.1, hck⟩

theorem nodup_merge (a b : Table) (ha : NodupKeys a) : NodupKeys (merge_results a b) := by
  induction b generalizing a with
  | nil => exact ha
  | cons p rest ih =>
      show NodupKeys (merge_results (upsert_entry a p.1 p.2) rest)
      exact ih _ (nodup_upsert a p.1 p.2 ha)

theorem lookupCity_merge (a b : Table) (hb : NodupKeys b) (k : List Nat) :
    lookupCity (merge_results a b) k = mergeOpt (lookupCity a k) (lookupCity b k) := by
  induction b generalizing a with
  | nil =>
      show lookupCity a k = mergeOpt (lookupCity a k) none
      cases lookupCity a k <;> rfl
  | cons p rest ih =>
      obtain ⟨c, e⟩ := p
      unfold NodupKeys at hb
      simp only [List.map_cons, List.nodup_cons] at hb
      have hb' : NodupKeys rest := hb.2
      show lookupCity (merge_results (upsert_entry a c e) rest) k = _
      rw [ih (upsert_entry a c e) hb']
      by_cases hk : k = c
      · subst hk
        have hnone : lookupCity rest k = none :=
          lookupCity_eq_none_of_not_mem rest k hb.1
        rw [hnone, lookupCity_upsert_self]
        have hcons : lookupCity ((k, e) :: rest) k = some e := by
          show (if k = k then some e else lookupCity rest k) = some e
          rw [if_pos rfl]
        rw [hcons]
        cases h : lookupCity a k <;> simp [mergeOpt, upsertVal, h]
      · rw [lookupCity_upsert_other a c e k hk]
        have hcons : lookupCity ((c, e) :: rest) k = lookupCity rest k := by
          show (if c = k then some e else lookupCity rest k) = lookupCity rest k
          rw [if_neg (fun h => hk h.symm)]
        rw [hcons]

theorem wrap64_add_assoc (x y z : Int) :
    wrap64 (wrap64 (x + y) + z) = wrap64 (x + wrap64 (y + z)) := by
  unfold wrap64; omega

theorem wrap32_add_assoc (x y z : Nat) :
    wrap32 (wrap32 (x + y) + z) = wrap32 (x + wrap32 (y + z)) := by
  unfold wrap32; omega

theorem combineEntry_comm (a b : Entry) : combineEntry a b = combineEntry b a := by
  unfold combineEntry
  rw [min_comm, max_comm, Int.add_comm, Nat.add_comm]

theorem combineEntry_assoc (a b c : Entry) :
    combineEntry (combineEntry a b) c = combineEntry a (combineEntry b c) := by
  unfold combineEntry
  simp only [Entry.mk.injEq]
  exact ⟨min_assoc _ _ _, max_assoc _ _ _, wrap64_add_assoc _ _ _, wrap32_add_assoc _ _ _⟩

theorem mergeOpt_comm (x y : Option Entry) : mergeOpt x y = mergeOpt y x := by
  cases x <;> cases y <;> simp [mergeOpt, combineEntry_comm]

theorem mergeOpt_assoc (x y z : Option Entry) :
    mergeOpt (mergeOpt x y) z = mergeOpt x (mergeOpt y z) := by
  cases x <;> cases y <;> cases z <;> simp [mergeOpt, combineEntry_assoc]

/-- C4: merge_results is commutative and associative up to table equality
for tables with distinct keys, as every table built by the hash map
operations has: same key set and bit identical min, max, sum and count per
key regardless of merge order or tree shape; merging with an empty table on
either side leaves the table unchanged. -/
theorem c4_merge_algebra (a b c : Table)
    (ha : NodupKeys a) (hb : NodupKeys b) (hc : NodupKeys c) :
    TableEq (merge_results a b) (merge_results b a) ∧
    TableEq (merge_results (merge_results a b) c)
      (merge_results a (merge_results b c)) ∧
    merge_results a [] = a ∧
    TableEq (merge_results [] a) a := by
  refine ⟨?_, ?_, rfl, ?_⟩
  · intro k
    rw [lookupCity_merge a b hb k, lookupCity_merge b a ha k]
    exact mergeOpt_comm _ _
  · intro k
    rw [lookupCity_merge _ c hc k, lookupCity_merge a b hb k,
      lookupCity_merge a _ (nodup_merge b c hb) k, lookupCity_merge b c hc k]
    exact mergeOpt_assoc _ _ _
  · intro k
    rw [lookupCity_merge [] a ha k]
    cases lookupCity a k <;> rfl

/-- Witness for C4 at two concrete one entry tables and an empty third. -/
theorem c4_merge_algebra_witness :
    TableEq (merge_results [([65], ⟨1, 2, 3, 4⟩)] [([66], ⟨5, 6, 7, 8⟩)])
      (merge_results [([66], ⟨5, 6, 7, 8⟩)] [([65], ⟨1, 2, 3, 4⟩)]) ∧
    TableEq (merge_results (merge_results [([65], ⟨1, 2, 3, 4⟩)] [([66], ⟨5, 6, 7, 8⟩)]) [])
      (merge_results [([65], ⟨1, 2, 3, 4⟩)] (merge_results [([66], ⟨5, 6, 7, 8⟩)] [])) ∧
    merge_results [([65], ⟨1, 2, 3, 4⟩)] [] = [([65], ⟨1, 2, 3, 4⟩)] ∧
    TableEq (merge_results [] [([65], ⟨1, 2, 3, 4⟩)]) [([65], ⟨1, 2, 3, 4⟩)] :=
  c4_merge_algebra [([65], ⟨1, 2, 3, 4⟩)] [([66], ⟨5, 6, 7, 8⟩)] []
    (by decide) (by decide) (by decide)

theorem wrap64_eq_self {x : Int} (h1 : -9223372036854775808 ≤ x)
    (h2 : x < 9223372036854775808) : wrap64 x = x := by
  unfold wrap64; omega

theorem wrap32_eq_self {n : Nat} (h : n < 4294967296) : wrap32 n = n :=
  Nat.mod_eq_of_lt h

theorem insertVal_summary (old : Option Entry) (r : Int) (rs : List Int)
    (hold : ∀ e, old = some e → EntrySummary e rs) (hnone : old = none → rs = [])
    (hs1 : -9223372036854775808 ≤ rs.sum + r) (hs2 : rs.sum + r < 9223372036854775808)
    (hlen : rs.length + 1 < 4294967296) :
    EntrySummary (insertVal old r) (r :: rs) := by
  cases old with
  | none =>
      have hrs : rs = [] := hnone rfl
      subst hrs
      refine ⟨?_, by simp [insertVal], by simp [insertVal], by simp [insertVal]⟩
      intro x hx
      simp at hx
      subst hx
      exact ⟨le_refl _, le_refl _⟩
  | some o =>
      obtain ⟨hb, hc, hsum, hcnt⟩ := hold o rfl
      refine ⟨?_, ?_, ?_, ?_⟩
      · intro x hx
        rcases List.mem_cons.mp hx with hx | hx
        · subst hx
          exact ⟨min_le_right _ _, le_max_right _ _⟩
        · obtain ⟨h1, h2⟩ := hb x hx
          exact ⟨le_trans (min_le_left _ _) h1, le_trans h2 (le_max_left _ _)⟩
      · show 1 ≤ wrap32 (o.count + 1)
        rw [wrap32_eq_self (by omega)]
        omega
      · show wrap64 (o.sum + r) = (r :: rs).sum
        rw [hsum, List.sum_cons, wrap64_eq_self (by omega) (by omega)]
        ring
      · show wrap32 (o.count + 1) = (r :: rs).length
        rw [wrap32_eq_self (by omega), hcnt, List.length_cons]

theorem combine_summary (e1 e2 : Entry) (rs1 rs2 : List Int)
    (h1 : EntrySummary e1 rs1) (h2 : EntrySummary e2 rs2)
    (hs1 : -9223372036854775808 ≤ rs1.sum + rs2.sum)
    (hs2 : rs1.sum + rs2.sum < 9223372036854775808)
    (hlen : rs1.length + rs2.length < 4294967296) :
    EntrySummary (combineEntry e1 e2) (rs1 ++ rs2) := by
  obtain ⟨hb1, hc1, hsum1, hcnt1⟩ := h1
  obtain ⟨hb2, hc2, hsum2, hcnt2⟩ := h2
  refine ⟨?_, ?_, ?_, ?_⟩
  · intro x hx
    rcases List.mem_append.mp hx with hx | hx
    · obtain ⟨ha, hb⟩ := hb1 x hx
      exact ⟨le_trans (min_le_left _ _) ha, le_trans hb (le_max_left _ _)⟩
    · obtain ⟨ha, hb⟩ := hb2 x hx
      exact ⟨le_trans (min_le_right _ _) ha, le_trans hb (le_max_right _ _)⟩
  · show 1 ≤ wrap32 (e1.count + e2.count)
    rw [wrap32_eq_self (by omega)]
    omega
  · show wrap64 (e1.sum + e2.sum) = (rs1 ++ rs2).sum
    rw [hsum1, hsum2, List.sum_append, wrap64_eq_self (by omega) (by omega)]
  · show wrap32 (e1.count + e2.count) = (rs1 ++ rs2).length
    rw [wrap32_eq_self (by omega), hcnt1, hcnt2, List.length_append]

/-- C8: insert_reading and upsert_entry preserve the table invariant: for
every entry, min and max bound every folded reading, the count is at least
one from the moment the entry exists, the sum is the exact integer sum in
tenths of all readings folded in with none double counted or dropped (the
wrapping i64 and u32 accumulators are exact as long as the totals fit), and
an entry for a key exists if and only if at least one reading with that key
was folded in. -/
theorem c8_invariant_preservation :
    (∀ (t : Table) (m : List Nat → List Int) (k : List Nat) (r : Int),
      TableReps t m →
      -9223372036854775808 ≤ (m k).sum + r → (m k).sum + r < 9223372036854775808 →
      (m k).length + 1 < 4294967296 →
      TableReps (insert_reading t k r) (updateM m k (r :: m k))) ∧
    (∀ (t : Table) (m : List Nat → List Int) (k : List Nat) (e : Entry) (rs : List Int),
      TableReps t m → EntrySummary e rs →
      -9223372036854775808 ≤ (m k).sum + rs.sum →
      (m k).sum + rs.sum < 9223372036854775808 →
      (m k).length + rs.length < 4294967296 →
      TableReps (upsert_entry t k e) (updateM m k (m k ++ rs))) := by
  constructor
  · intro t m k r hrep hs1 hs2 hlen q
    by_cases hq : q = k
    · subst hq
      constructor
      · intro e' he'
        rw [lookupCity_insert_self] at he'
        have he2 : e' = insertVal (lookupCity t q) r := by
          exact (Option.some.injEq _ _ ▸ he').symm
        subst he2
        have hupd : updateM m q (r :: m q) q = r :: m q := by
          simp [updateM]
        rw [hupd]
        exact insertVal_summary (lookupCity t q) r (m q)
          (fun e he => (hrep q).1 e he) (fun hn => (hrep q).2 hn) hs1 hs2 hlen
      · intro hnone
        rw [lookupCity_insert_self] at hnone
        exact absurd hnone (by simp)
    · constructor
      · intro e' he'
        rw [lookupCity_insert_other t k r q hq] at he'
        have hupd : updateM m k (r :: m k) q = m q := by
          simp [updateM, hq]
        rw [hupd]
        exact (hrep q).1 e' he'
      · intro hnone
        rw [lookupCity_insert_other t k r q hq] at hnone
        have hupd : updateM m k (r :: m k) q = m q := by
          simp [updateM, hq]
        rw [hupd]
        exact (hrep q).2 hnone
  · intro t m k e rs hrep hsume hs1 hs2 hlen q
    by_cases hq : q = k
    · subst hq
      constructor
      · intro e' he'
        rw [lookupCity_upsert_self] at he'
        have he2 : e' = upsertVal (lookupCity t q) e := by
          exact (Option.some.injEq _ _ ▸ he').symm
        subst he2
        have hupd : updateM m q (m q ++ rs) q = m q ++ rs := by
          simp [updateM]
        rw [hupd]
        cases hlk : lookupCity t q with
        | none =>
            have hmq : m q = [] := (hrep q).2 hlk
            rw [hmq]
            show EntrySummary e ([] ++ rs)
            simpa using hsume
        | some o =>
            have ho : EntrySummary o (m q) := (hrep q).1 o hlk
            show EntrySummary (combineEntry o e) (m q ++ rs)
            exact combine_summary o e (m q) rs ho hsume hs1 hs2 hlen
      · intro hnone
        rw [lookupCity_upsert_self] at hnone
        exact absurd hnone (by simp)
    · constructor
      · intro e' he'
        rw [lookupCity_upsert_other t k e q hq] at he'
        have hupd : updateM m k (m k ++ rs) q = m q := by
          simp [updateM, hq]
        rw [hupd]
        exact (hrep q).1 e' he'
      · intro hnone
        rw [lookupCity_upsert_other t k e q hq] at hnone
        have hupd : updateM m k (m k ++ rs) q = m q := by
          simp [updateM, hq]
        rw [hupd]
        exact (hrep q).2 hnone

/-- Witness for C8 at the empty table: folding the reading 5 for key A and
upserting a singleton entry for key B both preserve the representation. -/
theorem c8_invariant_preservation_witness :
    TableReps (insert_reading [] [65] 5) (updateM (fun _ => []) [65] [5]) ∧
    TableReps (upsert_entry [] [66] ⟨1, 1, 1, 1⟩) (updateM (fun _ => []) [66] [1]) := by
  have hrep : TableReps [] (fun _ => []) :=
    fun k => ⟨fun e he => Option.noConfusion he, fun _ => rfl⟩
  constructor
  · exact c8_invariant_preservation.1 [] (fun _ => []) [65] 5 hrep
      (by norm_num) (by norm_num) (by norm_num)
  · have hse : EntrySummary ⟨1, 1, 1, 1⟩ [1] := by
      refine ⟨?_, by norm_num, by norm_num, by norm_num⟩
      intro x hx
      simp at hx
      subst hx
      exact ⟨le_refl _, le_refl _⟩
    exact c8_invariant_preservation.2 [] (fun _ => []) [66] ⟨1, 1, 1, 1⟩ [1] hrep hse
      (by norm_num) (by norm_num) (by norm_num)

theorem buffer_cons (r : RawRecord) (rs : List RawRecord) :
    buffer (r :: rs) = recordBytes r ++ buffer rs := by
  simp [buffer]

theorem buffer_append (xs ys : List RawRecord) :
    buffer (xs ++ ys) = buffer xs ++ buffer ys := by
  simp [buffer]

theorem numBytes_length (r : RawRecord) :
    (numBytes r).length = (if r.neg then 1 else 0) + r.digits.length + 2 := by
  cases hn : r.neg <;> simp [numBytes, numBytesOf, hn]
  all_goals omega

theorem recordBytes_length (r : RawRecord) :
    (recordBytes r).length = r.key.length + (numBytes r).length + 2 := by
  simp [recordBytes]
  omega

theorem recordBytes_length_ge (r : RawRecord) (h : WFRecord r) :
    6 ≤ (recordBytes r).length := by
  obtain ⟨hk, _, hd, _, _, _⟩ := h
  have h1 : 1 ≤ r.key.length := List.length_pos.mpr hk
  have h2 : 1 ≤ r.digits.length := List.length_pos.mpr hd
  rw [recordBytes_length, numBytes_length]
  cases r.neg <;> simp <;> omega

theorem drop_len_add (pre l : List Nat) (k : Nat) :
    (pre ++ l).drop (pre.length + k) = l.drop k := by
  induction pre with
  | nil => simp
  | cons b bs ih =>
      show (b :: (bs ++ l)).drop (bs.length + 1 + k) = l.drop k
      rw [show bs.length + 1 + k = (bs.length + k) + 1 by omega]
      simpa using ih

theorem record_init_no10 (r : RawRecord) (h : WFRecord r) :
    10 ∉ r.key ++ 59 :: numBytes r := by
  obtain ⟨_, hkey, _, hdig, hf1, hf2⟩ := h
  intro hmem
  rcases List.mem_append.mp hmem with hm | hm
  · exact (hkey 10 hm).2 rfl
  · rcases List.mem_cons.mp hm with hm | hm
    · exact absurd hm (by decide)
    · unfold numBytes numBytesOf at hm
      rcases List.mem_append.mp hm with hm1 | hm1
      · rcases List.mem_append.mp hm1 with hm2 | hm2
        · cases hn : r.neg
          · rw [hn] at hm2; simp at hm2
          · rw [hn] at hm2; simp at hm2
        · have := hdig 10 hm2; omega
      · rcases List.mem_cons.mp hm1 with h1 | h1
        · exact absurd h1 (by decide)
        · rcases List.mem_cons.mp h1 with h2 | h2
          · omega
          · simp at h2

theorem skipLine_record (pre : List Nat) (r : RawRecord) (Z : List Nat) (lo : Nat)
    (hwf : WFRecord r) (h1 : pre.length ≤ lo)
    (h2 : lo < pre.length + (recordBytes r).length) :
    skipLine (pre ++ recordBytes r ++ Z) lo =
      some (pre.length + (recordBytes r).length) := by
  have hrec : recordBytes r = (r.key ++ 59 :: numBytes r) ++ [10] := by
    simp [recordBytes]
  obtain ⟨j, rfl⟩ : ∃ j, lo = pre.length + j := ⟨lo - pre.length, by omega⟩
  have hlen : (recordBytes r).length = (r.key ++ 59 :: numBytes r).length + 1 := by
    rw [hrec]
    simp
    omega
  have hjlt : j ≤ (r.key ++ 59 :: numBytes r).length := by omega
  have hdrop : (pre ++ recordBytes r ++ Z).drop (pre.length + j) =
      (r.key ++ 59 :: numBytes r).drop j ++ 10 :: Z := by
    rw [List.append_assoc, drop_len_add]
    rw [hrec, List.append_assoc]
    rw [List.drop_append_of_le_length hjlt]
    rfl
  have hno10 : 10 ∉ (r.key ++ 59 :: numBytes r).drop j :=
    fun hm => record_init_no10 r hwf (List.drop_subset _ _ hm)
  rw [skipLine_spec _ (pre.length + j) _ Z hdrop hno10]
  congr 1
  rw [List.length_drop]
  omega

theorem mem_digits_ne46 (r : RawRecord) (hwf : WFRecord r) : 46 ∉ r.digits := by
  obtain ⟨_, _, _, hdig, _, _⟩ := hwf
  intro hm
  have := hdig 46 hm
  omega

theorem mem_digits_ne45 (r : RawRecord) (hwf : WFRecord r) : 45 ∉ r.digits := by
  obtain ⟨_, _, _, hdig, _, _⟩ := hwf
  intro hm
  have := hdig 45 hm
  omega

theorem scanGo_record_step (pre : List Nat) (r : RawRecord) (Z : List Nat)
    (hi : Nat) (t : Table) (f : Nat) (hwf : WFRecord r) (hlt : pre.length < hi) :
    ∃ t2 p2, scanGo (f + 1) (pre ++ recordBytes r ++ Z) pre.length hi t =
        scanGo f (pre ++ recordBytes r ++ Z) p2 hi t2 ∧
      p2 = pre.length + (recordBytes r).length := by
  have hk := hwf.1
  have hkey := hwf.2.1
  cases hk0 : r.key with
  | nil => exact absurd hk0 hk
  | cons k0 kt =>
  have hshape : recordBytes r ++ Z = k0 :: (kt ++ 59 :: (numBytes r ++ 10 :: Z)) := by
    simp [recordBytes, hk0, List.append_assoc]
  have hdropsemi : (pre ++ recordBytes r ++ Z).drop (pre.length + 1) =
      kt ++ 59 :: (numBytes r ++ 10 :: Z) := by
    rw [List.append_assoc, drop_len_add, hshape]
    rfl
  have h59 : 59 ∉ kt := by
    intro hm
    exact (hkey 59 (hk0 ▸ List.mem_cons_of_mem k0 hm)).1 rfl
  have hsemi : scanSemi (pre ++ recordBytes r ++ Z) (pre.length + 1) =
      some (pre.length + 1 + kt.length) :=
    scanSemi_spec _ _ kt _ hdropsemi h59
  have hdropnum : (pre ++ recordBytes r ++ Z).drop (pre.length + 1 + kt.length + 1) =
      numBytes r ++ 10 :: Z := by
    rw [show pre.length + 1 + kt.length + 1 = pre.length + (1 + kt.length + 1) by omega]
    rw [List.append_assoc, drop_len_add, hshape]
    rw [show (1 : Nat) + kt.length + 1 = (kt.length + 1) + 1 by omega]
    rw [List.drop_succ_cons]
    rw [show kt.length + 1 = kt.length + 1 from rfl]
    rw [drop_len_add kt (59 :: (numBytes r ++ 10 :: Z)) 1]
    rfl
  have h46 := mem_digits_ne46 r hwf
  have h45 := mem_digits_ne45 r hwf
  cases hn : r.neg with
  | false =>
      have hnum : numBytes r ++ 10 :: Z = r.digits ++ 46 :: r.frac :: (10 :: Z) := by
        simp [numBytes, numBytesOf, hn, List.append_assoc]
      have hparse := parse_i16_spec_pos (pre ++ recordBytes r ++ Z)
        (pre.length + 1 + kt.length + 1) r.digits r.frac (10 :: Z)
        (by rw [hdropnum, hnum]) h46 h45
      refine ⟨insert_reading t
          (sliceBytes (pre ++ recordBytes r ++ Z) pre.length (pre.length + 1 + kt.length))
          (accumFin 0 r.digits r.frac),
        pre.length + 1 + kt.length + 1 + r.digits.length + 2 + 1, ?_, ?_⟩
      · simp only [scanGo, if_pos hlt, hsemi, hparse]
      · rw [recordBytes_length, numBytes_length, hn, hk0]
        simp
        omega
  | true =>
      have hnum : numBytes r ++ 10 :: Z = 45 :: (r.digits ++ 46 :: r.frac :: (10 :: Z)) := by
        simp [numBytes, numBytesOf, hn, List.append_assoc]
      have hparse := parse_i16_spec_neg (pre ++ recordBytes r ++ Z)
        (pre.length + 1 + kt.length + 1) r.digits r.frac (10 :: Z)
        (by rw [hdropnum, hnum]) h46
      refine ⟨insert_reading t
          (sliceBytes (pre ++ recordBytes r ++ Z) pre.length (pre.length + 1 + kt.length))
          (wrap16 (-(accumFin 0 r.digits r.frac))),
        pre.length + 1 + kt.length + 1 + r.digits.length + 3 + 1, ?_, ?_⟩
      · simp only [scanGo, if_pos hlt, hsemi, hparse]
      · rw [recordBytes_length, numBytes_length, hn, hk0]
        simp
        omega

theorem scanGo_wf_isSome (rs : List RawRecord) :
    ∀ (fuel : Nat) (pre : List Nat) (hi : Nat) (t : Table),
      (∀ r ∈ rs, WFRecord r) →
      hi ≤ pre.length + (buffer rs).length →
      hi - pre.length < fuel →
      (scanGo fuel (pre ++ buffer rs) pre.length hi t).isSome = true := by
  induction rs with
  | nil =>
      intro fuel pre hi t hwf hle hfuel
      cases fuel with
      | zero => omega
      | succ f =>
          have hnlt : ¬ (pre.length < hi) := by
            simp [buffer] at hle
            omega
          simp [scanGo, hnlt]
  | cons r rs ih =>
      intro fuel pre hi t hwf hle hfuel
      by_cases hlt : pre.length < hi
      · cases fuel with
        | zero => omega
        | succ f =>
            have hwfr : WFRecord r := hwf r (List.mem_cons_self r rs)
            obtain ⟨t2, p2, hstep, hp2⟩ :=
              scanGo_record_step pre r (buffer rs) hi t f hwfr hlt
            rw [buffer_cons, ← List.append_assoc]
            rw [hstep, hp2]
            have hle2 : hi ≤ (pre ++ recordBytes r).length + (buffer rs).length := by
              rw [buffer_cons, List.length_append] at hle
              rw [List.length_append]
              omega
            have hf2 : hi - (pre ++ recordBytes r).length < f := by
              have h6 := recordBytes_length_ge r hwfr
              rw [List.length_append]
              omega
            have happ := ih f (pre ++ recordBytes r) hi t2
              (fun x hx => hwf x (List.mem_cons_of_mem r hx)) hle2 hf2
            rw [List.length_append] at happ
            exact happ
      · cases fuel with
        | zero => omega
        | succ f => simp [scanGo, hlt]

theorem buffer_split (rs : List RawRecord) (lo : Nat) :
    lo < (buffer rs).length →
    ∃ rs1 r rs2, rs = rs1 ++ r :: rs2 ∧ (buffer rs1).length ≤ lo ∧
      lo < (buffer rs1).length + (recordBytes r).length := by
  induction rs generalizing lo with
  | nil =>
      intro h
      simp [buffer] at h
  | cons r rs ih =>
      intro h
      by_cases hlo : lo < (recordBytes r).length
      · exact ⟨[], r, rs, rfl, by simp [buffer], by simpa [buffer] using hlo⟩
      · push_neg at hlo
        rw [buffer_cons, List.length_append] at h
        obtain ⟨rs1, r2, rs2, heq, hle, hlt⟩ := ih (lo - (recordBytes r).length) (by omega)
        refine ⟨r :: rs1, r2, rs2, by rw [heq]; rfl, ?_, ?_⟩
        · rw [buffer_cons, List.length_append]
          omega
        · rw [buffer_cons, List.length_append]
          omega

theorem process_chunk_wf_isSome (rs : List RawRecord) (lo hi : Nat)
    (hwf : ∀ r ∈ rs, WFRecord r) (hhi : hi ≤ (buffer rs).length)
    (hlo : lo = 0 ∨ lo < (buffer rs).length) :
    (process_chunk (buffer rs) lo hi).isSome = true := by
  by_cases hz : lo = 0
  · subst hz
    show (process_chunk (buffer rs) 0 hi).isSome = true
    have h := scanGo_wf_isSome rs (hi - 0 + 1) [] hi [] hwf (by simpa using hhi) (by omega)
    simp only [List.nil_append, List.length_nil] at h
    simpa [process_chunk, scanRecords] using h
  · have hlo2 : lo < (buffer rs).length := by
      rcases hlo with h | h
      · exact absurd h hz
      · exact h
    obtain ⟨rs1, r, rs2, heq, hle, hlt⟩ := buffer_split rs lo hlo2
    have hbuf : buffer rs = buffer rs1 ++ recordBytes r ++ buffer rs2 := by
      rw [heq, buffer_append, buffer_cons, List.append_assoc]
    have hwfr : WFRecord r := hwf r (by rw [heq]; simp)
    have hskip : skipLine (buffer rs) lo =
        some ((buffer rs1).length + (recordBytes r).length) := by
      rw [hbuf]
      exact skipLine_record (buffer rs1) r (buffer rs2) lo hwfr hle hlt
    have hlen2 : (buffer rs).length =
        (buffer rs1).length + (recordBytes r).length + (buffer rs2).length := by
      rw [hbuf]
      simp only [List.length_append]
    have hscan := scanGo_wf_isSome rs2
      (hi - ((buffer rs1).length + (recordBytes r).length) + 1)
      (buffer rs1 ++ recordBytes r) hi []
      (fun x hx => hwf x (by rw [heq]; simp [hx]))
      (by rw [List.length_append]; omega)
      (by rw [List.length_append]; omega)
    rw [← hbuf] at hscan
    rw [List.length_append] at hscan
    simp only [process_chunk, if_neg hz, hskip, scanRecords]
    exact hscan

/-- C9: on a well formed buffer (a concatenation of well formed records,
hence newline terminated) every unchecked byte read in process_chunk and
parse_i16 stays inside the buffer: in the total embedding, where an out of
bounds read returns none, process_chunk returns some for every window with
end at most the buffer length and start zero or inside the buffer, and in
particular for every window of the partitioning in main. Without the
trailing newline the scans can run past the end: on the seven byte buffer
A;0.0 newline X, the window starting at 1 reads past the end. -/
theorem c9_unchecked_reads_in_bounds :
    (∀ (rs : List RawRecord) (lo hi : Nat), (∀ r ∈ rs, WFRecord r) →
        hi ≤ (buffer rs).length → lo = 0 ∨ lo < (buffer rs).length →
        (process_chunk (buffer rs) lo hi).isSome = true) ∧
    (∀ (rs : List RawRecord), (∀ r ∈ rs, WFRecord r) →
        ∀ o ∈ chunkTables (buffer rs), o.isSome = true) ∧
    process_chunk [65, 59, 48, 46, 48, 10, 88] 1 7 = none := by
  refine ⟨process_chunk_wf_isSome, ?_, by decide⟩
  intro rs hwf o ho
  unfold chunkTables at ho
  obtain ⟨i, hmem, rfl⟩ := List.mem_map.mp ho
  have hir : i < THREADS := List.mem_range.mp hmem
  have h10 : THREADS = 10 := rfl
  rw [h10] at hir
  apply process_chunk_wf_isSome rs _ _ hwf
  · rw [h10]
    interval_cases i <;> omega
  · rw [h10]
    by_cases hL : (buffer rs).length = 0
    · left
      rw [hL]
      simp
    · right
      interval_cases i <;> omega

/-- Witness for C9 on the single record buffer A;0.0 with the full window. -/
theorem c9_unchecked_reads_in_bounds_witness :
    (process_chunk (buffer [⟨[65], false, [48], 48⟩]) 0 6).isSome = true :=
  c9_unchecked_reads_in_bounds.1 [⟨[65], false, [48], 48⟩] 0 6 (by decide)
    (by decide) (Or.inl rfl)

/-- C10: the loops of process_chunk make strict progress, which is what
makes every loop terminate: the boundary skip loop lands strictly past its
start on the byte after a newline, the semicolon scan lands at or after its
start on a semicolon, parse_i16 advances the head by at least two bytes,
and one full record iteration advances the head by at least five bytes. -/
theorem c10_loop_progress :
    (∀ (B : List Nat) (i h : Nat), skipLine B i = some h →
      i < h ∧ B[h - 1]? = some 10) ∧
    (∀ (B : List Nat) (i j : Nat), scanSemi B i = some j →
      i ≤ j ∧ B[j]? = some 59) ∧
    (∀ (B : List Nat) (p : Nat) (v : Int) (q : Nat), parse_i16 B p = some (v, q) →
      p + 2 ≤ q) ∧
    (∀ (B : List Nat) (head semi : Nat) (v : Int) (tail : Nat),
      scanSemi B (head + 1) = some semi → parse_i16 B (semi + 1) = some (v, tail) →
      head + 5 ≤ tail + 1) := by
  refine ⟨skipLine_at, scanSemi_at, parse_i16_ge, ?_⟩
  intro B head semi v tail hs hp
  have h1 := (scanSemi_at B (head + 1) semi hs).1
  have h2 := parse_i16_ge B (semi + 1) v tail hp
  omega

/-- Witness for C10 on the single record buffer A;0.0. -/
theorem c10_loop_progress_witness :
    (1 < 6 ∧ ([65, 59, 48, 46, 48, 10] : List Nat)[6 - 1]? = some 10) ∧
    (1 ≤ 1 ∧ ([65, 59, 48, 46, 48, 10] : List Nat)[1]? = some 59) ∧
    (2 + 2 ≤ 5) ∧
    (0 + 5 ≤ 5 + 1) := by
  refine ⟨?_, ?_, ?_, ?_⟩
  · exact c10_loop_progress.1 [65, 59, 48, 46, 48, 10] 1 6 (by decide)
  · exact c10_loop_progress.2.1 [65, 59, 48, 46, 48, 10] 1 1 (by decide)
  · exact c10_loop_progress.2.2.1 [65, 59, 48, 46, 48, 10] 2 0 5 (by decide)
  · exact c10_loop_progress.2.2.2 [65, 59, 48, 46, 48, 10] 0 1 0 5 (by decide) (by decide)
